import Mathlib

/-!
# Verification of the rate-limited request gateway (`src/api/rate-limiter.js`)

This file embeds the core of the repository's rate limiter in Lean 4:

* the retry/backoff loop of `makeRateLimitedRequest` (a pure recursion over
  attempt numbers, with the outcome of each `work()` invocation supplied by an
  oracle `work : Nat → Outcome`);
* the pacing computation of `RequestQueue.processQueue` (a schedule function
  over a list of task durations);
* an untimed labelled transition system for the queue/deduplication state
  (`RequestQueue.addRequest` / `processQueue`);
* a timed labelled transition system covering retrying callers interleaved
  with the queue's drain loop.

Times and delays are modelled as natural numbers of milliseconds; the JS
values involved (epoch milliseconds, delays up to 30000, multipliers) are
integers far below 2^53, where JS number arithmetic is exact.
-/

namespace RateLimiter

/-- A JavaScript error value as inspected by the rate limiter: it may carry a
`response` object with a `status` field (`error.response && error.response.status`),
and a `tag` distinguishing distinct error objects. -/
structure JsError where
  hasResponse : Bool
  status : Nat
  tag : Nat
deriving DecidableEq, Repr

/-- The test at line 138 of `rate-limiter.js`:
`error.response && error.response.status === 429`. -/
def is429 (e : JsError) : Bool := e.hasResponse && e.status == 429

/-- The outcome of one invocation of the caller-supplied `requestFn` (`work`):
it either resolves with a value or rejects with a JS error. -/
inductive Outcome where
  | ok (v : Nat)
  | err (e : JsError)
deriving DecidableEq, Repr

/-- `work` rejected with a rate-limit (429) error. -/
def rejects429 : Outcome → Bool
  | Outcome.ok _ => false
  | Outcome.err e => is429 e

/-- The retry options destructured at lines 114-120 of `rate-limiter.js`
(the `useQueue` flag selects the queue path and is modelled in the timed
system below; the pure retry recursion is the same on both paths because each
attempt is enqueued under a fresh key and so executes `requestFn` exactly once). -/
structure Options where
  maxRetries : Nat
  baseDelay : Nat
  maxDelay : Nat
  backoffMultiplier : Nat
deriving DecidableEq, Repr

/-- The defaults at lines 115-118: `maxRetries = 5`, `baseDelay = 2000`,
`maxDelay = 30000`, `backoffMultiplier = 2`. -/
def defaultOptions : Options :=
  { maxRetries := 5, baseDelay := 2000, maxDelay := 30000, backoffMultiplier := 2 }

/-- The backoff delay computed at lines 145-148:
`Math.min(baseDelay * Math.pow(backoffMultiplier, attempt), maxDelay)`. -/
def backoffDelay (o : Options) (attempt : Nat) : Nat :=
  min (o.baseDelay * o.backoffMultiplier ^ attempt) o.maxDelay

/-- How one call of `makeRateLimitedRequest` settles: the promise resolves
with the response or rejects with an error. -/
inductive Settled where
  | resolved (v : Nat)
  | rejected (e : JsError)
deriving DecidableEq, Repr

/-- The observable effect of one `makeRateLimitedRequest` call: how many times
`work` was invoked, the list of backoff delays slept (in order), and the final
settlement. -/
structure RunResult where
  invocations : Nat
  delays : List Nat
  result : Settled
deriving DecidableEq, Repr

/-- The retry loop of `makeRateLimitedRequest` (lines 127-160), recursing on
the number of remaining retries (`remaining = maxRetries - attempt`):

* `work attempt` resolves → return the response (line 133);
* `work attempt` rejects with a 429 and `attempt = maxRetries` (`remaining = 0`)
  → throw the error (line 141);
* `work attempt` rejects with a 429 and retries remain → sleep
  `backoffDelay` and continue with `attempt + 1` (lines 145-152);
* `work attempt` rejects with a non-429 error → throw it immediately
  (line 156). When `remaining = 0` the 429 and non-429 branches coincide:
  both throw the error just caught. -/
def runFrom (work : Nat → Outcome) (o : Options) (attempt : Nat) :
    Nat → RunResult
  | 0 =>
    match work attempt with
    | Outcome.ok v => ⟨1, [], Settled.resolved v⟩
    | Outcome.err e => ⟨1, [], Settled.rejected e⟩
  | r + 1 =>
    match work attempt with
    | Outcome.ok v => ⟨1, [], Settled.resolved v⟩
    | Outcome.err e =>
      if is429 e then
        let rest := runFrom work o (attempt + 1) r
        ⟨rest.invocations + 1, backoffDelay o attempt :: rest.delays, rest.result⟩
      else ⟨1, [], Settled.rejected e⟩

/-- `makeRateLimitedRequest` (lines 113-161): run the retry loop from
`attempt = 0` with `maxRetries` retries remaining. -/
def makeRateLimitedRequest (work : Nat → Outcome) (o : Options) : RunResult :=
  runFrom work o 0 o.maxRetries

/-- The spec's reading of rate-limit exhaustion (§4.1, §7): the gateway
rejects with a value that wraps — and hence is distinct from — the raw last
upstream error. Stated from the spec's words, for comparison with the code's
behaviour. -/
def rejectsWithWrapperNotRaw (r : RunResult) (lastErr : JsError) : Prop :=
  ∃ e, r.result = Settled.rejected e ∧ e ≠ lastErr

/-! ## The request queue as a transition system

`RequestQueue` (lines 16-97 of `rate-limiter.js`) is embedded as a
labelled transition system with executable steps. Each `QAction`
corresponds to an atomic stretch of the single-threaded JS event loop:
an `addRequest` call (lines 25-60), the `processQueue` entry check
setting `processing` (lines 62-67), the drain loop shifting a task and
starting its `requestFn` (lines 69-83), a `requestFn` settling and being
resolved/rejected (lines 83-87), and the drain loop exiting (line 90).
The oracle `env` gives the settlement of each queue entry's `requestFn`,
identified by the submitting caller. -/

/-- One `addRequest` submission: the promise-holding caller and its
deduplication key (parametric, compared for equality as
`activeRequests.has(key)` does). -/
structure Submission (κ : Type) where
  caller : Nat
  key : κ
deriving DecidableEq

/-- The state of the global `RequestQueue` together with the observables
the claims are about.

* `queue` — `this.queue`, FIFO;
* `drains` — the number of drain loops currently between lines 67 and 90
  (`this.processing` is `drains ≠ 0`);
* `active` — the keys of `this.activeRequests`;
* `attached` — submissions that found their key active and are waiting on
  the existing request's promise (lines 31-37);
* `running` — the entry shifted by the drain loop whose `requestFn` is in
  flight (line 83);
* `started` — callers whose `requestFn` invocation has started, in
  dispatch order;
* `settled` — `(caller, key, outcome)` per settled promise, in settle
  order;
* `submittedQ` — history of callers that took the enqueue path, in
  arrival order. -/
structure QState (κ : Type) where
  queue : List (Submission κ)
  drains : Nat
  active : List κ
  attached : List (Submission κ)
  running : Option (Submission κ)
  started : List Nat
  settled : List (Nat × κ × Settled)
  submittedQ : List Nat
deriving DecidableEq

/-- A fresh `RequestQueue` (constructor, lines 17-23). -/
def qinit (κ : Type) : QState κ :=
  ⟨[], 0, [], [], none, [], [], []⟩

/-- The atomic actions of the queue system. -/
inductive QAction (κ : Type) where
  | submit (c : Nat) (k : κ)
  | startDrain
  | dispatch
  | complete
  | stopDrain
deriving DecidableEq

/-- One atomic step of the queue system; `none` when the action's guard
does not hold in `s`.

* `submit c k` — `addRequest` (lines 25-60): if `k` is active, attach to
  the existing request's promise (lines 31-37); otherwise push the task
  and mark `k` active (lines 39-57).
* `startDrain` — the `processQueue` entry check (lines 63-67): runs only
  when no drain is active and the queue is non-empty, and marks a drain
  active. In the single-threaded event loop the check and the flag write
  are one atomic stretch.
* `dispatch` — the drain loop shifts the oldest task (line 70) and starts
  its `requestFn` (line 83); requires an active drain and no other
  `requestFn` in flight (the loop `await`s each request before shifting
  the next).
* `complete` — the in-flight `requestFn` settles with `env caller`; the
  task's `resolve`/`reject` (lines 43-52) deletes the key from
  `activeRequests` and settles the original caller together with every
  attached caller, all with the same outcome.
* `stopDrain` — the loop exits on an empty queue and clears `processing`
  (line 90). -/
def qstep {κ : Type} [DecidableEq κ] (env : Nat → Settled) (a : QAction κ)
    (s : QState κ) : Option (QState κ) :=
  match a with
  | QAction.submit c k =>
    if k ∈ s.active then
      some { s with attached := s.attached ++ [⟨c, k⟩] }
    else
      some { s with queue := s.queue ++ [⟨c, k⟩], active := s.active ++ [k],
                    submittedQ := s.submittedQ ++ [c] }
  | QAction.startDrain =>
    if s.drains = 0 ∧ s.queue ≠ [] then some { s with drains := s.drains + 1 }
    else none
  | QAction.dispatch =>
    match s.queue, s.running with
    | t :: rest, none =>
      if s.drains ≠ 0 then
        some { s with queue := rest, running := some t,
                      started := s.started ++ [t.caller] }
      else none
    | _, _ => none
  | QAction.complete =>
    match s.running with
    | some t =>
      some { s with running := none,
                    active := s.active.erase t.key,
                    attached := s.attached.filter (fun x => decide (x.key ≠ t.key)),
                    settled := s.settled ++ (t.caller, t.key, env t.caller) ::
                      (s.attached.filter (fun x => decide (x.key = t.key))).map
                        (fun x => (x.caller, x.key, env t.caller)) }
    | none => none
  | QAction.stopDrain =>
    if s.drains ≠ 0 ∧ s.queue = [] ∧ s.running = none then
      some { s with drains := s.drains - 1 }
    else none

/-- Run a list of actions from a state, failing if any guard fails. -/
def runQ {κ : Type} [DecidableEq κ] (env : Nat → Settled) :
    List (QAction κ) → QState κ → Option (QState κ)
  | [], s => some s
  | a :: tr, s =>
    match qstep env a s with
    | some s' => runQ env tr s'
    | none => none

/-- The keys with an underlying call outstanding: queued or in flight. -/
def outstandingKeys {κ : Type} (s : QState κ) : List κ :=
  (match s.running with | some t => [t.key] | none => []) ++ s.queue.map (·.key)

/-- The inductive invariant of the queue system:
at most one drain loop is active; the callers whose work has started,
followed by the still-queued callers, are exactly the enqueue-path
submissions in arrival order (FIFO); no key has two outstanding
underlying calls; and every outstanding key is registered active. -/
def QInv {κ : Type} (s : QState κ) : Prop :=
  s.drains ≤ 1 ∧
  s.started ++ s.queue.map (·.caller) = s.submittedQ ∧
  (outstandingKeys s).Nodup ∧
  ∀ k ∈ outstandingKeys s, k ∈ s.active

/-- The deduplication contract for a caller `c` that attached to an
in-flight key `k` (lines 31-37): at any later state, either `c` is still
waiting on the key's shared execution (attached, key still active), or
that execution has settled — some caller `c0`'s request on `k` settled
with outcome `r` and `c` settled with the identical `r` (same value or
same error). -/
def sharesOutcome {κ : Type} (c : Nat) (k : κ) (s : QState κ) : Prop :=
  (⟨c, k⟩ ∈ s.attached ∧ k ∈ s.active) ∨
  (∃ c0 r, (c0, k, r) ∈ s.settled ∧ (c, k, r) ∈ s.settled)

/-! ## The timed system: retrying callers interleaved with the drain loop

This transition system adds wall-clock time (milliseconds, as from
`Date.now()`) and models each `makeRateLimitedRequest` call as a *fiber*
running the loop of lines 127-160, interacting with the shared
`RequestQueue`. Every queue submission made by a fiber carries a fresh
key (`${requestKey}_${attempt}`, line 131) and `requestKey` holds a
per-call nonce (line 125), so the deduplication branch of `addRequest`
is never taken by these fibers and keys are omitted here; the
deduplication behaviour itself is covered by the untimed system. -/

/-- `this.minRequestInterval` (line 21): 1.2 seconds. -/
def minRequestInterval : Nat := 1200

/-- The pacing of lines 74-79: given the current time and
`this.lastRequestTime`, the instant at which the shifted task's
`requestFn` starts (sleep `minRequestInterval - elapsed` when the elapsed
time since the last request is below the floor, else start now). -/
def dispatchStartTime (now last : Nat) : Nat :=
  if now - last < minRequestInterval then now + (minRequestInterval - (now - last))
  else now

/-- Where a fiber is in the loop of lines 127-160:

* `waiting attempt` — attempt `attempt` has been handed to the queue (or
  runs directly when the fiber bypasses the queue) and is not settled;
* `backoff attempt wake` — attempt `attempt` got a 429; the fiber sleeps
  until `wake` (line 151) and will then run attempt `attempt + 1`;
* `bypassRunning attempt finish` — a `useQueue = false` fiber's direct
  `requestFn()` call (line 132) is in flight until `finish`;
* `done r` — the `makeRateLimitedRequest` promise settled with `r`. -/
inductive FiberPhase where
  | waiting (attempt : Nat)
  | backoff (attempt : Nat) (wake : Nat)
  | bypassRunning (attempt : Nat) (finish : Nat)
  | done (r : Settled)
deriving DecidableEq, Repr

/-- One `makeRateLimitedRequest` call: its `useQueue` option and its
current phase. -/
structure Fiber where
  useQueue : Bool
  phase : FiberPhase
deriving DecidableEq, Repr

/-- Observable events of the timed system. `dispatch f a start finish`
records a queue-path `requestFn` run for fiber `f`'s attempt `a`;
`backoffStart f start wake` records the beginning of a backoff sleep;
`bypassDispatch` records a direct (`useQueue = false`) `requestFn` run. -/
inductive TEvent where
  | dispatch (fiber attempt start finish : Nat)
  | backoffStart (fiber start wake : Nat)
  | bypassDispatch (fiber attempt start finish : Nat)
deriving DecidableEq, Repr

/-- State of the timed system: the clock, the queue fields of the global
`RequestQueue` (`lastRequestTime` line 20, `queue`, `processing` as the
count `drains`, the in-flight entry `running` as
`(fiber, attempt, start, finish)`), the fibers (indexed by position), and
the event log. -/
structure TState where
  time : Nat
  lastRequestTime : Nat
  queue : List (Nat × Nat)
  drains : Nat
  running : Option (Nat × Nat × Nat × Nat)
  fibers : List Fiber
  events : List TEvent
deriving DecidableEq, Repr

/-- A fresh system at clock `t0`: the `RequestQueue` constructor sets
`lastRequestTime = 0` (line 20). `Date.now()` is large (milliseconds
since the epoch), so `t0` is in practice far above `minRequestInterval`. -/
def tinit (t0 : Nat) : TState :=
  ⟨t0, 0, [], 0, none, [], []⟩

/-- Replace the phase of fiber `f`, keeping its `useQueue` flag. -/
def setPhase (fs : List Fiber) (f : Nat) (p : FiberPhase) : List Fiber :=
  match fs[f]? with
  | some fb => fs.set f ⟨fb.useQueue, p⟩
  | none => fs

/-- Actions of the timed system. `wake f` is the expiry of fiber `f`'s
backoff sleep (the continuation after line 151), which re-enters the loop
and submits attempt `attempt + 1`. -/
inductive TAction where
  | submit (useQ : Bool)
  | startDrain
  | dispatch
  | complete
  | stopDrain
  | wake (f : Nat)
  | bypassStart (f : Nat)
  | bypassComplete (f : Nat)
deriving DecidableEq, Repr

/-- One atomic step of the timed system. `o` is the retry configuration
shared by the fibers and `work f a` gives the duration and outcome of
fiber `f`'s attempt `a` of `requestFn`.

* `submit useQ` — a new `makeRateLimitedRequest` call begins; with
  `useQueue = true` its attempt 0 is enqueued (line 131), otherwise the
  fiber will run `requestFn` directly (line 132).
* `startDrain` / `stopDrain` — the `processQueue` entry check and loop
  exit, as in the untimed system.
* `dispatch` — the drain loop shifts the oldest entry, sleeps the pacing
  floor if needed (lines 74-79), records `lastRequestTime` (line 81) and
  starts `requestFn` (line 83).
* `complete` — the in-flight `requestFn` settles at its finish time; the
  fiber's `catch` (lines 134-157) then either resolves the call, starts a
  backoff sleep on a 429 with retries remaining (delay of lines 145-148),
  or rejects.
* `wake f` — fiber `f`'s backoff expires; it submits attempt
  `attempt + 1` (queue path) or prepares to rerun directly (bypass path).
* `bypassStart f` / `bypassComplete f` — a `useQueue = false` fiber's
  direct `requestFn()` run starting immediately at the current instant,
  and its settlement, handled by the same `catch` logic. -/
def tstep (o : Options) (work : Nat → Nat → Nat × Outcome) (a : TAction)
    (s : TState) : Option TState :=
  match a with
  | TAction.submit useQ =>
    match useQ with
    | true =>
      some { s with fibers := s.fibers ++ [⟨true, FiberPhase.waiting 0⟩],
                    queue := s.queue ++ [(s.fibers.length, 0)] }
    | false =>
      some { s with fibers := s.fibers ++ [⟨false, FiberPhase.waiting 0⟩] }
  | TAction.startDrain =>
    if s.drains = 0 ∧ s.queue ≠ [] then some { s with drains := s.drains + 1 }
    else none
  | TAction.dispatch =>
    match s.queue, s.running with
    | (f, a) :: rest, none =>
      if s.drains ≠ 0 then
        some { s with
          time := dispatchStartTime s.time s.lastRequestTime,
          lastRequestTime := dispatchStartTime s.time s.lastRequestTime,
          queue := rest,
          running := some (f, a, dispatchStartTime s.time s.lastRequestTime,
            dispatchStartTime s.time s.lastRequestTime + (work f a).1),
          events := s.events ++ [TEvent.dispatch f a
            (dispatchStartTime s.time s.lastRequestTime)
            (dispatchStartTime s.time s.lastRequestTime + (work f a).1)] }
      else none
    | _, _ => none
  | TAction.complete =>
    match s.running with
    | some (f, a, _, fin) =>
      if s.time ≤ fin then
        match (work f a).2 with
        | Outcome.ok v =>
          some { s with time := fin, running := none,
                        fibers := setPhase s.fibers f (FiberPhase.done (Settled.resolved v)) }
        | Outcome.err e =>
          if is429 e then
            if a < o.maxRetries then
              some { s with time := fin, running := none,
                            fibers := setPhase s.fibers f
                              (FiberPhase.backoff a (fin + backoffDelay o a)),
                            events := s.events ++
                              [TEvent.backoffStart f fin (fin + backoffDelay o a)] }
            else
              some { s with time := fin, running := none,
                            fibers := setPhase s.fibers f
                              (FiberPhase.done (Settled.rejected e)) }
          else
            some { s with time := fin, running := none,
                          fibers := setPhase s.fibers f
                            (FiberPhase.done (Settled.rejected e)) }
      else none
    | none => none
  | TAction.stopDrain =>
    if s.drains ≠ 0 ∧ s.queue = [] ∧ s.running = none then
      some { s with drains := s.drains - 1 }
    else none
  | TAction.wake f =>
    match s.fibers[f]? with
    | some fb =>
      match fb.phase with
      | FiberPhase.backoff a w =>
        if s.time ≤ w then
          match fb.useQueue with
          | true =>
            some { s with time := w,
                          fibers := setPhase s.fibers f (FiberPhase.waiting (a + 1)),
                          queue := s.queue ++ [(f, a + 1)] }
          | false =>
            some { s with time := w,
                          fibers := setPhase s.fibers f (FiberPhase.waiting (a + 1)) }
        else none
      | _ => none
    | none => none
  | TAction.bypassStart f =>
    match s.fibers[f]? with
    | some fb =>
      match fb.phase with
      | FiberPhase.waiting a =>
        match fb.useQueue with
        | true => none
        | false =>
          some { s with fibers := setPhase s.fibers f
                          (FiberPhase.bypassRunning a (s.time + (work f a).1)),
                        events := s.events ++
                          [TEvent.bypassDispatch f a s.time (s.time + (work f a).1)] }
      | _ => none
    | none => none
  | TAction.bypassComplete f =>
    match s.fibers[f]? with
    | some fb =>
      match fb.phase with
      | FiberPhase.bypassRunning a fin =>
        if s.time ≤ fin then
          match (work f a).2 with
          | Outcome.ok v =>
            some { s with time := fin,
                          fibers := setPhase s.fibers f
                            (FiberPhase.done (Settled.resolved v)) }
          | Outcome.err e =>
            if is429 e then
              if a < o.maxRetries then
                some { s with time := fin,
                              fibers := setPhase s.fibers f
                                (FiberPhase.backoff a (fin + backoffDelay o a)),
                              events := s.events ++
                                [TEvent.backoffStart f fin (fin + backoffDelay o a)] }
              else
                some { s with time := fin,
                              fibers := setPhase s.fibers f
                                (FiberPhase.done (Settled.rejected e)) }
            else
              some { s with time := fin,
                            fibers := setPhase s.fibers f
                              (FiberPhase.done (Settled.rejected e)) }
        else none
      | _ => none
    | none => none

/-- Run a list of timed actions, failing if any guard fails. -/
def runT (o : Options) (work : Nat → Nat → Nat × Outcome) :
    List TAction → TState → Option TState
  | [], s => some s
  | a :: tr, s =>
    match tstep o work a s with
    | some s' => runT o work tr s'
    | none => none

/-- A queue-path `requestFn` run as recorded in the event log. -/
structure DispatchRec where
  fiber : Nat
  attempt : Nat
  start : Nat
  finish : Nat
deriving DecidableEq, Repr

/-- The queue-path dispatch records of an event log, in order (bypass
runs and backoff events are not dispatches through the queue). -/
def dispatchRecs (evs : List TEvent) : List DispatchRec :=
  evs.filterMap fun e =>
    match e with
    | TEvent.dispatch f a st fin => some ⟨f, a, st, fin⟩
    | _ => none

/-- The fibers holding the queue slot or the in-flight request: the
running entry's fiber followed by the queued fibers in order. -/
def occupants (s : TState) : List Nat :=
  (match s.running with | some r => [r.1] | none => []) ++ s.queue.map (·.1)

/-- C2 as the spec states it: no queued task belonging to another fiber
is ever dispatched strictly inside a backoff window. -/
def noOtherDispatchDuringBackoff (s : TState) : Prop :=
  ∀ f bst wake, TEvent.backoffStart f bst wake ∈ s.events →
    ∀ f' a st fin, TEvent.dispatch f' a st fin ∈ s.events →
      f' ≠ f → ¬(bst ≤ st ∧ st < wake)

/-- The pacing/serialization relation between consecutive queue
dispatches: the later one starts at least `minRequestInterval` after the
earlier one started, and not before the earlier one finished. -/
def pacedNonoverlapping (x y : DispatchRec) : Prop :=
  x.start + minRequestInterval ≤ y.start ∧ x.finish ≤ y.start

/-- The inductive invariant of the timed system:

1. `lastRequestTime` never exceeds the clock;
2. consecutive queue dispatches are paced and never overlap;
3. with no dispatch yet, `lastRequestTime` still holds its initial 0;
4. the last dispatch record's start is exactly `lastRequestTime`, and its
   start does not exceed its finish;
5. the running entry is the last dispatch record;
6. when nothing is running, the last dispatch finished by now;
7. every fiber holding a queue slot or the in-flight request is a
   queue-path fiber in `waiting` phase — in particular a fiber sleeping
   in backoff holds neither;
8. no fiber occupies two slots. -/
def TInv (s : TState) : Prop :=
  (s.lastRequestTime ≤ s.time) ∧
  (List.Chain' pacedNonoverlapping (dispatchRecs s.events)) ∧
  ((dispatchRecs s.events).getLast? = none → s.lastRequestTime = 0) ∧
  (∀ r, (dispatchRecs s.events).getLast? = some r →
    r.start = s.lastRequestTime ∧ r.start ≤ r.finish) ∧
  (∀ f a st fin, s.running = some (f, a, st, fin) →
    (dispatchRecs s.events).getLast? = some ⟨f, a, st, fin⟩) ∧
  (s.running = none → ∀ r, (dispatchRecs s.events).getLast? = some r →
    r.finish ≤ s.time) ∧
  (∀ f ∈ occupants s, ∃ fb, s.fibers[f]? = some fb ∧ fb.useQueue = true ∧
    ∃ a, fb.phase = FiberPhase.waiting a) ∧
  (occupants s).Nodup

/-! ## Concrete inputs used by witnesses and counterexamples -/

/-- A 429 rate-limit error object. -/
def e429sample : JsError := ⟨true, 429, 7⟩

/-- A network-style failure with no `response` field at all. -/
def eNoResponse : JsError := ⟨false, 0, 3⟩

/-- A work function that rejects with the same 429 error on every attempt. -/
def work429 : Nat → Outcome := fun _ => Outcome.err e429sample

/-- Small retry options: `maxRetries = 2`, `baseDelay = 10`, `maxDelay = 1000`,
`backoffMultiplier = 2`. -/
def optsSmall : Options := ⟨2, 10, 1000, 2⟩

/-- The spec's example scenario 2: 429 on the first three attempts, success
on the fourth. -/
def workSpec2 : Nat → Outcome :=
  fun i => if i < 3 then Outcome.err e429sample else Outcome.ok 42

/-- The spec's example scenario 2 options: `maxRetries = 5`, `baseDelay = 10`,
`multiplier = 2`. -/
def optsSpec2 : Options := ⟨5, 10, 1000, 2⟩

/-- A work-settlement oracle for the deduplication scenario: every queue
entry's `requestFn` resolves with 99. -/
def envC3 : Nat → Settled := fun _ => Settled.resolved 99

/-- The deduplication scenario of the spec (example 5): two submissions
with the same key (5) fired back to back before the first settles, then a
full drain. -/
def c3trace : List (QAction Nat) :=
  [QAction.submit 0 5, QAction.submit 1 5, QAction.startDrain,
   QAction.dispatch, QAction.complete, QAction.stopDrain]

/-- The final state of the deduplication scenario. -/
def c3state : QState Nat :=
  (runQ envC3 c3trace (qinit Nat)).getD (qinit Nat)

/-- Work oracle for the backoff-interleaving scenario: fiber 0 gets a 429
on its first attempt and succeeds on the second; fiber 1 succeeds at once;
every `requestFn` run takes 100ms. -/
def c2work : Nat → Nat → Nat × Outcome := fun f a =>
  if f = 0 then
    (if a = 0 then (100, Outcome.err e429sample) else (100, Outcome.ok 1))
  else (100, Outcome.ok 2)

/-- Two queued fibers at clock 10000: fiber 0's first attempt 429s, fiber 1
is dispatched while fiber 0 sleeps its backoff, then fiber 0 retries. -/
def c2trace : List TAction :=
  [TAction.submit true, TAction.submit true, TAction.startDrain,
   TAction.dispatch, TAction.complete, TAction.dispatch, TAction.complete,
   TAction.stopDrain, TAction.wake 0, TAction.startDrain, TAction.dispatch,
   TAction.complete, TAction.stopDrain]

/-- The final state of the backoff-interleaving scenario. -/
def c2state : TState :=
  (runT defaultOptions c2work c2trace (tinit 10000)).getD (tinit 0)

/-- Prefix of the scenario ending right after fiber 0 entered backoff. -/
def c2start : List TAction :=
  [TAction.submit true, TAction.submit true, TAction.startDrain,
   TAction.dispatch, TAction.complete]

/-- The state after `c2start`: fiber 0 is in backoff, fiber 1 still queued. -/
def c2midState : TState :=
  (runT defaultOptions c2work c2start (tinit 10000)).getD (tinit 0)

/-- Work oracle for the bypass scenario: fiber 0 (queued) is slow (5000ms);
fiber 1 is fast. -/
def c9work : Nat → Nat → Nat × Outcome := fun f _ =>
  if f = 0 then (5000, Outcome.ok 1) else (100, Outcome.ok 2)

/-- Bypass scenario: a queued fiber is dispatched and still in flight when
a `useQueue = false` fiber is submitted. -/
def c9trace : List TAction :=
  [TAction.submit true, TAction.startDrain, TAction.dispatch,
   TAction.submit false]

/-- The state mid-drain with the bypass fiber submitted but not yet run. -/
def c9state : TState :=
  (runT defaultOptions c9work c9trace (tinit 10000)).getD (tinit 0)

/-- A work-settlement oracle that rejects every queue entry with a 429
error, exercising the "same error" half of the deduplication contract. -/
def envC3err : Nat → Settled := fun _ => Settled.rejected e429sample

/-- The state after the first submission on key 5. -/
def c3sub0 : QState Nat :=
  (runQ envC3err [QAction.submit 0 5] (qinit Nat)).getD (qinit Nat)

/-- The state after the second submission on key 5 arrived while the
first was unsettled (it attaches). -/
def c3sub1 : QState Nat :=
  (qstep envC3err (QAction.submit 1 5) c3sub0).getD (qinit Nat)

/-- A full drain of the queue. -/
def c3drain : List (QAction Nat) :=
  [QAction.startDrain, QAction.dispatch, QAction.complete, QAction.stopDrain]

/-- The final state of the rejected-outcome deduplication scenario. -/
def c3final : QState Nat :=
  (runQ envC3err c3drain c3sub1).getD (qinit Nat)

/-- The internal request key built at line 125:
`rate_limit_${Date.now()}_${Math.random()}`, modelled as the list of its
interpolated segments. -/
def mkRequestKey (now rand : Nat) : List Nat := [now, rand]

/-- The per-attempt queue key built at line 131: `${requestKey}_${attempt}`. -/
def attemptKey (k : List Nat) (attempt : Nat) : List Nat := k ++ [attempt]

/-! ## Lemmas about the retry loop -/

/-- If every attempt from `attempt` through `attempt + r` rejects with a 429,
the loop performs exactly `r + 1` invocations, sleeps the backoff delays of
attempts `attempt, …, attempt + r - 1`, and rejects with the error of the
last attempt. -/
theorem runFrom_all429 (work : Nat → Outcome) (o : Options) :
    ∀ (r attempt : Nat),
      (∀ i, i ≤ r → rejects429 (work (attempt + i)) = true) →
      ∃ e, work (attempt + r) = Outcome.err e ∧
        runFrom work o attempt r =
          ⟨r + 1, (List.range r).map (fun i => backoffDelay o (attempt + i)),
            Settled.rejected e⟩ := by
  intro r
  induction r with
  | zero =>
    intro attempt h
    have h0 := h 0 (Nat.le_refl 0)
    cases hw : work attempt with
    | ok v => rw [Nat.add_zero, hw] at h0; simp [rejects429] at h0
    | err e =>
      refine ⟨e, by rw [Nat.add_zero, hw], ?_⟩
      simp [runFrom, hw]
  | succ r ih =>
    intro attempt h
    have h0 := h 0 (Nat.zero_le _)
    cases hw : work attempt with
    | ok v => rw [Nat.add_zero, hw] at h0; simp [rejects429] at h0
    | err e =>
      rw [Nat.add_zero, hw] at h0
      have h429 : is429 e = true := h0
      have hshift : ∀ i, i ≤ r → rejects429 (work (attempt + 1 + i)) = true := by
        intro i hi
        have := h (i + 1) (Nat.succ_le_succ hi)
        rw [show attempt + (i + 1) = attempt + 1 + i by omega] at this
        exact this
      obtain ⟨e', hwe', hrun⟩ := ih (attempt + 1) hshift
      refine ⟨e', by rw [show attempt + (r + 1) = attempt + 1 + r by omega]; exact hwe', ?_⟩
      have hmap : (List.range (r + 1)).map (fun i => backoffDelay o (attempt + i)) =
          backoffDelay o attempt ::
            (List.range r).map (fun i => backoffDelay o (attempt + 1 + i)) := by
        rw [List.range_succ_eq_map, List.map_cons, List.map_map]
        refine congrArg₂ _ (by rw [Nat.add_zero]) ?_
        refine List.map_congr_left ?_
        intro i _
        simp only [Function.comp]
        exact congrArg (backoffDelay o) (by omega)
      simp only [runFrom, hw, h429, if_pos, hrun, hmap]

/-- If attempts `attempt, …, attempt + k - 1` reject with 429s and attempt
`attempt + k` resolves with `v` (with `k ≤ remaining`), the loop performs
exactly `k + 1` invocations, sleeps the backoff delays of the failed
attempts, and resolves with `v`. -/
theorem runFrom_429s_then_ok (work : Nat → Outcome) (o : Options) (v : Nat) :
    ∀ (k attempt r : Nat), k ≤ r →
      (∀ i, i < k → rejects429 (work (attempt + i)) = true) →
      work (attempt + k) = Outcome.ok v →
      runFrom work o attempt r =
        ⟨k + 1, (List.range k).map (fun i => backoffDelay o (attempt + i)),
          Settled.resolved v⟩ := by
  intro k
  induction k with
  | zero =>
    intro attempt r _ _ hok
    rw [Nat.add_zero] at hok
    cases r with
    | zero => simp [runFrom, hok]
    | succ r => simp [runFrom, hok]
  | succ k ih =>
    intro attempt r hkr h429 hok
    cases r with
    | zero => omega
    | succ r =>
      have h0 := h429 0 (Nat.zero_le _ |>.trans_lt (Nat.succ_pos k))
      rw [Nat.add_zero] at h0
      cases hw : work attempt with
      | ok v' => rw [hw] at h0; simp [rejects429] at h0
      | err e =>
        rw [hw] at h0
        have h429e : is429 e = true := h0
        have hshift : ∀ i, i < k → rejects429 (work (attempt + 1 + i)) = true := by
          intro i hi
          have := h429 (i + 1) (Nat.succ_lt_succ hi)
          rw [show attempt + (i + 1) = attempt + 1 + i by omega] at this
          exact this
        have hok' : work (attempt + 1 + k) = Outcome.ok v := by
          rw [show attempt + 1 + k = attempt + (k + 1) by omega]; exact hok
        have hrun := ih (attempt + 1) r (Nat.le_of_succ_le_succ hkr) hshift hok'
        have hmap : (List.range (k + 1)).map (fun i => backoffDelay o (attempt + i)) =
            backoffDelay o attempt ::
              (List.range k).map (fun i => backoffDelay o (attempt + 1 + i)) := by
          rw [List.range_succ_eq_map, List.map_cons, List.map_map]
          refine congrArg₂ _ (by rw [Nat.add_zero]) ?_
          refine List.map_congr_left ?_
          intro i _
          simp only [Function.comp]
          exact congrArg (backoffDelay o) (by omega)
        simp only [runFrom, hw, h429e, if_pos, hrun, hmap]

/-- The retry loop always invokes `work` at least once. -/
theorem runFrom_invocations_pos (work : Nat → Outcome) (o : Options) :
    ∀ (r attempt : Nat), 1 ≤ (runFrom work o attempt r).invocations := by
  intro r
  induction r with
  | zero =>
    intro attempt
    cases hw : work attempt <;> simp [runFrom, hw]
  | succ r ih =>
    intro attempt
    cases hw : work attempt with
    | ok v => simp [runFrom, hw]
    | err e =>
      by_cases h429 : is429 e = true
      · simp [runFrom, hw, h429]
      · simp [runFrom, hw, h429]

/-- In every run, the backoff delays slept are exactly the formula
`min(baseDelay * backoffMultiplier^a, maxDelay)` for the 0-based attempt
numbers `a = 0, …, invocations - 2` (one delay after each non-final
attempt, all of which rejected with a 429). -/
theorem runFrom_delays_formula (work : Nat → Outcome) (o : Options) :
    ∀ (r attempt : Nat),
      (runFrom work o attempt r).delays =
        (List.range ((runFrom work o attempt r).invocations - 1)).map
          (fun i => backoffDelay o (attempt + i)) := by
  intro r
  induction r with
  | zero =>
    intro attempt
    cases hw : work attempt <;> simp [runFrom, hw]
  | succ r ih =>
    intro attempt
    cases hw : work attempt with
    | ok v => simp [runFrom, hw]
    | err e =>
      by_cases h429 : is429 e = true
      · simp only [runFrom, hw, h429, if_pos]
        have hpos := runFrom_invocations_pos work o r (attempt + 1)
        obtain ⟨n, hn⟩ : ∃ n, (runFrom work o (attempt + 1) r).invocations = n + 1 :=
          ⟨(runFrom work o (attempt + 1) r).invocations - 1, by omega⟩
        have hrest := ih (attempt + 1)
        rw [hn] at hrest
        simp only [Nat.add_sub_cancel] at hrest
        rw [hrest, hn]
        simp only [Nat.add_sub_cancel]
        rw [List.range_succ_eq_map, List.map_cons, List.map_map]
        refine congrArg₂ _ (by rw [Nat.add_zero]) ?_
        refine (List.map_congr_left ?_).symm
        intro i _
        simp only [Function.comp]
        exact congrArg (backoffDelay o) (by omega)
      · simp [runFrom, hw, h429]

/-- With a multiplier of at least 1, the backoff delay is non-decreasing in
the attempt number. -/
theorem backoffDelay_monotone (o : Options) (hmult : 1 ≤ o.backoffMultiplier)
    (a b : Nat) (hab : a ≤ b) : backoffDelay o a ≤ backoffDelay o b := by
  unfold backoffDelay
  exact min_le_min
    (Nat.mul_le_mul_left _ (Nat.pow_le_pow_right hmult hab)) (Nat.le_refl _)

/-! ## Claim theorems -/

/-- C1: a task whose `work()` rejects with an HTTP 429 on every attempt is
invoked exactly `maxRetries + 1` times in total, and the call then rejects —
never more and never fewer invocations. -/
theorem c1_retry_budget (work : Nat → Outcome) (o : Options)
    (h : ∀ i, i ≤ o.maxRetries → rejects429 (work i) = true) :
    (makeRateLimitedRequest work o).invocations = o.maxRetries + 1 ∧
    ∃ e, (makeRateLimitedRequest work o).result = Settled.rejected e := by
  obtain ⟨e, _, hrun⟩ := runFrom_all429 work o o.maxRetries 0
    (by intro i hi; simpa using h i hi)
  unfold makeRateLimitedRequest
  rw [hrun]
  exact ⟨rfl, e, rfl⟩

/-- Witness for C1: with `maxRetries = 2` and an always-429 work function,
`work` runs exactly 3 times and the call rejects. -/
theorem c1_retry_budget_witness :
    (∀ i, i ≤ optsSmall.maxRetries → rejects429 (work429 i) = true) ∧
    ((makeRateLimitedRequest work429 optsSmall).invocations = optsSmall.maxRetries + 1 ∧
      ∃ e, (makeRateLimitedRequest work429 optsSmall).result = Settled.rejected e) :=
  ⟨fun _ _ => rfl, c1_retry_budget work429 optsSmall (fun _ _ => rfl)⟩

/-- C4 counterexample: with every attempt rejecting 429 (`maxRetries = 2`),
the call rejects with the raw last upstream error object itself (line 141 of
`rate-limiter.js` is `throw error`); no `RateLimitExceeded` wrapper distinct
from the upstream error exists, refuting the claim that the rejection wraps
rather than is the raw error. -/
theorem c4_no_wrapper_counterexample :
    (∀ i, work429 i = Outcome.err e429sample) ∧
    ¬ rejectsWithWrapperNotRaw (makeRateLimitedRequest work429 optsSmall) e429sample := by
  refine ⟨fun _ => rfl, ?_⟩
  rintro ⟨e, he, hne⟩
  have hres : (makeRateLimitedRequest work429 optsSmall).result =
      Settled.rejected e429sample := by decide
  rw [hres] at he
  exact hne (Settled.rejected.injEq _ _ ▸ he).symm

/-- C4 amended: when every attempt through the retry budget rejects with an
HTTP 429, the gateway rejects with the raw last upstream error itself (the
error object thrown by `work` on the final attempt); the code defines no
`RateLimitExceeded` wrapper. -/
theorem c4_rejects_raw_last_error (work : Nat → Outcome) (o : Options)
    (h : ∀ i, i ≤ o.maxRetries → rejects429 (work i) = true) :
    ∃ e, work o.maxRetries = Outcome.err e ∧
      (makeRateLimitedRequest work o).result = Settled.rejected e := by
  obtain ⟨e, hwe, hrun⟩ := runFrom_all429 work o o.maxRetries 0
    (by intro i hi; simpa using h i hi)
  refine ⟨e, by simpa using hwe, ?_⟩
  unfold makeRateLimitedRequest
  rw [hrun]

/-- Witness for the amended C4. -/
theorem c4_rejects_raw_last_error_witness :
    (∀ i, i ≤ optsSmall.maxRetries → rejects429 (work429 i) = true) ∧
    ∃ e, work429 optsSmall.maxRetries = Outcome.err e ∧
      (makeRateLimitedRequest work429 optsSmall).result = Settled.rejected e :=
  ⟨fun _ _ => rfl, c4_rejects_raw_last_error work429 optsSmall (fun _ _ => rfl)⟩

/-- C5: in every run, the delay slept before the retry following 0-based
attempt `a` equals `min(baseDelay * backoffMultiplier^a, maxDelay)`; with a
multiplier ≥ 1 this sequence is non-decreasing, and it never exceeds
`maxDelay`. -/
theorem c5_backoff_delays (work : Nat → Outcome) (o : Options)
    (hmult : 1 ≤ o.backoffMultiplier) :
    (makeRateLimitedRequest work o).delays =
      (List.range ((makeRateLimitedRequest work o).invocations - 1)).map
        (fun a => min (o.baseDelay * o.backoffMultiplier ^ a) o.maxDelay) ∧
    (∀ a b, a ≤ b → backoffDelay o a ≤ backoffDelay o b) ∧
    (∀ a, backoffDelay o a ≤ o.maxDelay) := by
  refine ⟨?_, backoffDelay_monotone o hmult, fun a => min_le_right _ _⟩
  have := runFrom_delays_formula work o o.maxRetries 0
  unfold makeRateLimitedRequest
  rw [this]
  refine List.map_congr_left ?_
  intro i _
  simp [backoffDelay]

/-- Witness for C5, the spec's example scenario 2: 429 on attempts 0-2,
success on attempt 3, `baseDelay = 10`, `multiplier = 2`: the delays are
10, 20, 40 (and the run resolved after 4 invocations). -/
theorem c5_backoff_delays_witness :
    1 ≤ optsSpec2.backoffMultiplier ∧
    ((makeRateLimitedRequest workSpec2 optsSpec2).delays =
      (List.range ((makeRateLimitedRequest workSpec2 optsSpec2).invocations - 1)).map
        (fun a => min (optsSpec2.baseDelay * optsSpec2.backoffMultiplier ^ a)
          optsSpec2.maxDelay) ∧
    (∀ a b, a ≤ b → backoffDelay optsSpec2 a ≤ backoffDelay optsSpec2 b) ∧
    (∀ a, backoffDelay optsSpec2 a ≤ optsSpec2.maxDelay)) :=
  ⟨by decide, c5_backoff_delays workSpec2 optsSpec2 (by decide)⟩

/-- The spec's example scenario 2, evaluated: delays 10ms, 20ms, 40ms before
attempts 2, 3, 4, then a successful result after 4 invocations. -/
theorem spec_scenario2_eval :
    makeRateLimitedRequest workSpec2 optsSpec2 =
      ⟨4, [10, 20, 40], Settled.resolved 42⟩ := by decide

/-- C6: a task whose `work()` rejects on the first attempt with any error
that is not an HTTP 429 (including errors with no `response` field at all)
rejects with that same error after exactly one invocation, with no retries
and no backoff delays. -/
theorem c6_non429_fails_fast (work : Nat → Outcome) (o : Options) (e : JsError)
    (hw : work 0 = Outcome.err e) (h : is429 e = false) :
    makeRateLimitedRequest work o = ⟨1, [], Settled.rejected e⟩ := by
  unfold makeRateLimitedRequest
  cases hr : o.maxRetries with
  | zero => simp [runFrom, hw]
  | succ r => simp [runFrom, hw, h]

/-- Witness for C6: a no-`response` network failure on the first attempt. -/
theorem c6_non429_fails_fast_witness :
    (fun (_ : Nat) => Outcome.err eNoResponse) 0 = Outcome.err eNoResponse ∧
    is429 eNoResponse = false ∧
    makeRateLimitedRequest (fun _ => Outcome.err eNoResponse) optsSmall =
      ⟨1, [], Settled.rejected eNoResponse⟩ :=
  ⟨rfl, by decide,
    c6_non429_fails_fast (fun _ => Outcome.err eNoResponse) optsSmall eNoResponse
      rfl (by decide)⟩

/-! ## Queue invariants -/

/-- Every enabled step of the queue system preserves `QInv`. -/
theorem qstep_preserves_QInv {κ : Type} [DecidableEq κ] (env : Nat → Settled)
    (a : QAction κ) (s s' : QState κ)
    (h : qstep env a s = some s') (hs : QInv s) : QInv s' := by
  obtain ⟨h1, h2, h3, h4⟩ := hs
  cases a with
  | submit c k =>
    simp only [qstep] at h
    by_cases hk : k ∈ s.active
    · rw [if_pos hk] at h
      obtain rfl := Option.some.inj h
      exact ⟨h1, h2, h3, h4⟩
    · rw [if_neg hk] at h
      obtain rfl := Option.some.inj h
      have houts : outstandingKeys { s with
          queue := s.queue ++ [⟨c, k⟩], active := s.active ++ [k],
          submittedQ := s.submittedQ ++ [c] } = outstandingKeys s ++ [k] := by
        simp [outstandingKeys, List.append_assoc]
      have hknotin : k ∉ outstandingKeys s := fun hmem => hk (h4 k hmem)
      refine ⟨h1, ?_, ?_, ?_⟩
      · show s.started ++ (s.queue ++ [(⟨c, k⟩ : Submission κ)]).map (·.caller) =
          s.submittedQ ++ [c]
        rw [List.map_append, ← List.append_assoc, h2]
        simp
      · rw [houts]
        simp only [List.nodup_append, List.nodup_singleton]
        exact ⟨h3, trivial, by simpa [List.disjoint_singleton] using hknotin⟩
      · intro k' hk'
        rw [houts] at hk'
        show k' ∈ s.active ++ [k]
        rcases List.mem_append.mp hk' with h' | h'
        · exact List.mem_append.mpr (Or.inl (h4 k' h'))
        · exact List.mem_append.mpr (Or.inr h')
  | startDrain =>
    simp only [qstep] at h
    by_cases hc : s.drains = 0 ∧ s.queue ≠ []
    · rw [if_pos hc] at h
      obtain rfl := Option.some.inj h
      obtain ⟨hd, -⟩ := hc
      refine ⟨?_, h2, h3, h4⟩
      show s.drains + 1 ≤ 1
      omega
    · rw [if_neg hc] at h
      cases h
  | dispatch =>
    simp only [qstep] at h
    cases hq : s.queue with
    | nil =>
      simp only [hq] at h
      cases h
    | cons t rest =>
      simp only [hq] at h
      cases hr : s.running with
      | some u => simp only [hr] at h; cases h
      | none =>
        simp only [hr] at h
        by_cases hd : s.drains = 0
        · rw [if_neg (fun hne => hne hd)] at h
          cases h
        · rw [if_pos hd] at h
          obtain rfl := Option.some.inj h
          have houts : outstandingKeys { s with
              queue := rest, running := some t,
              started := s.started ++ [t.caller] } = outstandingKeys s := by
            simp [outstandingKeys, hq, hr]
          refine ⟨h1, ?_, by rw [houts]; exact h3, by rw [houts]; exact h4⟩
          show (s.started ++ [t.caller]) ++ rest.map (·.caller) = s.submittedQ
          rw [List.append_assoc, List.singleton_append, ← List.map_cons, ← hq]
          exact h2
  | complete =>
    simp only [qstep] at h
    cases hr : s.running with
    | none => simp only [hr] at h; cases h
    | some t =>
      simp only [hr] at h
      obtain rfl := Option.some.inj h
      have hout : outstandingKeys s = t.key :: s.queue.map (·.key) := by
        simp [outstandingKeys, hr]
      rw [hout] at h3 h4
      obtain ⟨hhead, htail⟩ := List.nodup_cons.mp h3
      refine ⟨h1, h2, ?_, ?_⟩
      · simpa [outstandingKeys] using htail
      · intro k hk
        have hkq : k ∈ s.queue.map (·.key) := by simpa [outstandingKeys] using hk
        have hkact : k ∈ s.active := h4 k (List.mem_cons_of_mem _ hkq)
        have hkne : k ≠ t.key := fun he => hhead (he ▸ hkq)
        show k ∈ s.active.erase t.key
        exact (List.mem_erase_of_ne hkne).mpr hkact
  | stopDrain =>
    simp only [qstep] at h
    by_cases hc : s.drains ≠ 0 ∧ s.queue = [] ∧ s.running = none
    · rw [if_pos hc] at h
      obtain rfl := Option.some.inj h
      refine ⟨?_, h2, h3, h4⟩
      show s.drains - 1 ≤ 1
      omega
    · rw [if_neg hc] at h
      cases h

/-- Running any action trace preserves `QInv`. -/
theorem runQ_preserves_QInv {κ : Type} [DecidableEq κ] (env : Nat → Settled) :
    ∀ (tr : List (QAction κ)) (s s' : QState κ),
      QInv s → runQ env tr s = some s' → QInv s' := by
  intro tr
  induction tr with
  | nil =>
    intro s s' hs h
    obtain rfl := Option.some.inj h
    exact hs
  | cons a tr ih =>
    intro s s' hs h
    simp only [runQ] at h
    cases hstep : qstep env a s with
    | none => rw [hstep] at h; cases h
    | some s1 =>
      rw [hstep] at h
      exact ih s1 s' (qstep_preserves_QInv env a s s1 hstep hs) h

/-- A fresh queue satisfies the invariant. -/
theorem QInv_qinit (κ : Type) : QInv (qinit κ) :=
  ⟨Nat.zero_le 1, rfl, List.nodup_nil, fun _ hk => absurd hk (by simp [outstandingKeys, qinit])⟩

/-- Every state reachable from a fresh queue satisfies the invariant. -/
theorem runQ_QInv {κ : Type} [DecidableEq κ] (env : Nat → Settled)
    (tr : List (QAction κ)) (s : QState κ)
    (h : runQ env tr (qinit κ) = some s) : QInv s :=
  runQ_preserves_QInv env tr (qinit κ) s (QInv_qinit κ) h

/-- No step ever removes a settled entry: settlements are permanent. -/
theorem qstep_settled_mono {κ : Type} [DecidableEq κ] (env : Nat → Settled)
    (a : QAction κ) (s s' : QState κ) (h : qstep env a s = some s') :
    ∀ x ∈ s.settled, x ∈ s'.settled := by
  intro x hx
  cases a with
  | submit c k =>
    simp only [qstep] at h
    by_cases hk : k ∈ s.active
    · rw [if_pos hk] at h
      obtain rfl := Option.some.inj h
      exact hx
    · rw [if_neg hk] at h
      obtain rfl := Option.some.inj h
      exact hx
  | startDrain =>
    simp only [qstep] at h
    by_cases hc : s.drains = 0 ∧ s.queue ≠ []
    · rw [if_pos hc] at h
      obtain rfl := Option.some.inj h
      exact hx
    · rw [if_neg hc] at h
      cases h
  | dispatch =>
    simp only [qstep] at h
    cases hq : s.queue with
    | nil => simp only [hq] at h; cases h
    | cons t rest =>
      simp only [hq] at h
      cases hr : s.running with
      | some u => simp only [hr] at h; cases h
      | none =>
        simp only [hr] at h
        by_cases hd : s.drains = 0
        · rw [if_neg (fun hne => hne hd)] at h
          cases h
        · rw [if_pos hd] at h
          obtain rfl := Option.some.inj h
          exact hx
  | complete =>
    simp only [qstep] at h
    cases hr : s.running with
    | none => simp only [hr] at h; cases h
    | some t =>
      simp only [hr] at h
      obtain rfl := Option.some.inj h
      exact List.mem_append_left _ hx
  | stopDrain =>
    simp only [qstep] at h
    by_cases hc : s.drains ≠ 0 ∧ s.queue = [] ∧ s.running = none
    · rw [if_pos hc] at h
      obtain rfl := Option.some.inj h
      exact hx
    · rw [if_neg hc] at h
      cases h

/-- Every enabled step preserves the deduplication contract of an attached
caller: while the key is active the attachment survives every action, and
the completion of the key's execution settles the attached caller together
with the original, both with the single outcome `env t.caller`. -/
theorem qstep_preserves_sharesOutcome {κ : Type} [DecidableEq κ]
    (env : Nat → Settled) (c : Nat) (k : κ) (a : QAction κ) (s s' : QState κ)
    (h : qstep env a s = some s') (hp : sharesOutcome c k s) :
    sharesOutcome c k s' := by
  rcases hp with ⟨hatt, hact⟩ | ⟨c0, r, h0, h1⟩
  case inr =>
    exact Or.inr ⟨c0, r, qstep_settled_mono env a s s' h _ h0,
      qstep_settled_mono env a s s' h _ h1⟩
  case inl =>
    cases a with
    | submit c' k' =>
      simp only [qstep] at h
      by_cases hk : k' ∈ s.active
      · rw [if_pos hk] at h
        obtain rfl := Option.some.inj h
        exact Or.inl ⟨List.mem_append_left _ hatt, hact⟩
      · rw [if_neg hk] at h
        obtain rfl := Option.some.inj h
        exact Or.inl ⟨hatt, List.mem_append_left _ hact⟩
    | startDrain =>
      simp only [qstep] at h
      by_cases hc : s.drains = 0 ∧ s.queue ≠ []
      · rw [if_pos hc] at h
        obtain rfl := Option.some.inj h
        exact Or.inl ⟨hatt, hact⟩
      · rw [if_neg hc] at h
        cases h
    | dispatch =>
      simp only [qstep] at h
      cases hq : s.queue with
      | nil => simp only [hq] at h; cases h
      | cons t rest =>
        simp only [hq] at h
        cases hr : s.running with
        | some u => simp only [hr] at h; cases h
        | none =>
          simp only [hr] at h
          by_cases hd : s.drains = 0
          · rw [if_neg (fun hne => hne hd)] at h
            cases h
          · rw [if_pos hd] at h
            obtain rfl := Option.some.inj h
            exact Or.inl ⟨hatt, hact⟩
    | complete =>
      simp only [qstep] at h
      cases hr : s.running with
      | none => simp only [hr] at h; cases h
      | some t =>
        simp only [hr] at h
        obtain rfl := Option.some.inj h
        by_cases hkt : k = t.key
        · subst hkt
          refine Or.inr ⟨t.caller, env t.caller, ?_, ?_⟩
          · exact List.mem_append_right _ (List.mem_cons_self _ _)
          · refine List.mem_append_right _ (List.mem_cons_of_mem _ ?_)
            refine List.mem_map.mpr ⟨⟨c, t.key⟩, ?_, rfl⟩
            refine List.mem_filter.mpr ⟨hatt, ?_⟩
            simp
        · refine Or.inl ⟨?_, ?_⟩
          · exact List.mem_filter.mpr ⟨hatt, decide_eq_true hkt⟩
          · exact (List.mem_erase_of_ne hkt).mpr hact
    | stopDrain =>
      simp only [qstep] at h
      by_cases hc : s.drains ≠ 0 ∧ s.queue = [] ∧ s.running = none
      · rw [if_pos hc] at h
        obtain rfl := Option.some.inj h
        exact Or.inl ⟨hatt, hact⟩
      · rw [if_neg hc] at h
        cases h

/-- Running any action trace preserves the deduplication contract. -/
theorem runQ_preserves_sharesOutcome {κ : Type} [DecidableEq κ]
    (env : Nat → Settled) (c : Nat) (k : κ) :
    ∀ (tr : List (QAction κ)) (s s' : QState κ),
      sharesOutcome c k s → runQ env tr s = some s' → sharesOutcome c k s' := by
  intro tr
  induction tr with
  | nil =>
    intro s s' hp h
    obtain rfl := Option.some.inj h
    exact hp
  | cons a tr ih =>
    intro s s' hp h
    simp only [runQ] at h
    cases hstep : qstep env a s with
    | none => rw [hstep] at h; cases h
    | some s1 =>
      rw [hstep] at h
      exact ih s1 s' (qstep_preserves_sharesOutcome env c k a s s1 hstep hp) h

/-- C3: for every submission on a key that is still active (its first
execution unsettled), universally over all states, oracles and
continuations:

* the submission attaches without creating any new underlying call — the
  queue, the started invocations, the in-flight entry, the active keys
  and the settlements are all unchanged;
* from then on, in every reachable continuation the attached caller is
  either still waiting on the key's shared execution or has settled
  together with it: some caller's execution of the key settled with
  outcome `r` and the attached caller settled with the identical `r`
  (same value or same error);
* and at no reachable state does any key have two independent underlying
  calls outstanding simultaneously. -/
theorem c3_dedup_single_call :
    (∀ (env : Nat → Settled) (tr : List (QAction Nat)) (s : QState Nat),
        runQ env tr (qinit Nat) = some s → (outstandingKeys s).Nodup) ∧
    (∀ (env : Nat → Settled) (c k : Nat) (s0 s1 : QState Nat),
        k ∈ s0.active → qstep env (QAction.submit c k) s0 = some s1 →
        s1.queue = s0.queue ∧ s1.started = s0.started ∧
        s1.running = s0.running ∧ s1.active = s0.active ∧
        s1.settled = s0.settled ∧ s1.attached = s0.attached ++ [⟨c, k⟩]) ∧
    (∀ (env : Nat → Settled) (c k : Nat) (s0 s1 : QState Nat),
        k ∈ s0.active → qstep env (QAction.submit c k) s0 = some s1 →
        ∀ (tr : List (QAction Nat)) (s' : QState Nat), runQ env tr s1 = some s' →
          sharesOutcome c k s') := by
  refine ⟨fun env tr s h => (runQ_QInv env tr s h).2.2.1, ?_, ?_⟩
  · intro env c k s0 s1 hk h
    simp only [qstep] at h
    rw [if_pos hk] at h
    obtain rfl := Option.some.inj h
    exact ⟨rfl, rfl, rfl, rfl, rfl, rfl⟩
  · intro env c k s0 s1 hk h tr s' hrun
    have hbase : sharesOutcome c k s1 := by
      simp only [qstep] at h
      rw [if_pos hk] at h
      obtain rfl := Option.some.inj h
      exact Or.inl ⟨List.mem_append_right _ (List.mem_singleton.mpr rfl), hk⟩
    exact runQ_preserves_sharesOutcome env c k tr s1 s' hbase hrun

/-- Witness for C3: a second submission on key 5 attaches while the
first is unsettled; after a full drain with a rejecting oracle, `work`
started exactly once (caller 0 only) and both callers settled with the
identical rejected outcome. -/
theorem c3_dedup_single_call_witness :
    (5 ∈ c3sub0.active ∧
      qstep envC3err (QAction.submit 1 5) c3sub0 = some c3sub1 ∧
      runQ envC3err c3drain c3sub1 = some c3final) ∧
    sharesOutcome 1 5 c3final ∧
    c3final.started = [0] ∧
    c3final.settled = [(0, 5, Settled.rejected e429sample),
      (1, 5, Settled.rejected e429sample)] :=
  ⟨⟨by decide, by decide, by decide⟩,
    c3_dedup_single_call.2.2 envC3err 1 5 c3sub0 c3sub1 (by decide) (by decide)
      c3drain c3final (by decide),
    by decide, by decide⟩

/-- C10: the entry points build every queue key from a per-call nonce
(`Date.now()`, `Math.random()`) with the attempt number appended
(lines 125 and 131), and `makeRateLimitedAxiosRequest` (lines 169-184)
passes no key of its own; keys from calls with distinct nonces are never
equal, and a submission whose key is not active never attaches to an
existing execution — it always enqueues a fresh task. -/
theorem c10_fresh_keys_never_shared :
    (∀ now rand now' rand' a a', (now, rand) ≠ (now', rand') →
        attemptKey (mkRequestKey now rand) a ≠ attemptKey (mkRequestKey now' rand') a') ∧
    (∀ (env : Nat → Settled) (c : Nat) (k : List Nat) (s s' : QState (List Nat)),
        k ∉ s.active → qstep env (QAction.submit c k) s = some s' →
        s'.attached = s.attached ∧ s'.queue = s.queue ++ [⟨c, k⟩] ∧
        s'.started = s.started) := by
  constructor
  · intro now rand now' rand' a a' hne heq
    obtain ⟨e1, e2, -⟩ := by simpa [attemptKey, mkRequestKey] using heq
    exact hne (by rw [e1, e2])
  · intro env c k s s' hk h
    simp only [qstep] at h
    rw [if_neg hk] at h
    obtain rfl := Option.some.inj h
    exact ⟨rfl, rfl, rfl⟩

/-- Witness for C10: distinct nonces give distinct keys, and a fresh key
submitted to a fresh queue enqueues without attaching. -/
theorem c10_fresh_keys_never_shared_witness :
    (((1, 2) : Nat × Nat) ≠ (1, 3) ∧
      attemptKey (mkRequestKey 1 2) 0 ≠ attemptKey (mkRequestKey 1 3) 0) ∧
    ([1, 2, 0] ∉ (qinit (List Nat)).active ∧
      ((qstep envC3 (QAction.submit 4 [1, 2, 0]) (qinit (List Nat))).getD
          (qinit (List Nat))).attached = (qinit (List Nat)).attached) :=
  ⟨⟨by decide, c10_fresh_keys_never_shared.1 1 2 1 3 0 0 (by decide)⟩,
    ⟨by decide,
      (c10_fresh_keys_never_shared.2 envC3 4 [1, 2, 0] (qinit (List Nat)) _
        (by decide) (by decide)).1⟩⟩

/-! ## Timed-system lemmas -/

/-- The pacing computation never moves the clock backwards. -/
theorem le_dispatchStartTime (now last : Nat) : now ≤ dispatchStartTime now last := by
  unfold dispatchStartTime
  split <;> omega

/-- When the previous request is not in the future, the next dispatch
starts at least `minRequestInterval` after it. -/
theorem lastReq_le_dispatchStartTime (now last : Nat) (h : last ≤ now) :
    last + minRequestInterval ≤ dispatchStartTime now last := by
  unfold dispatchStartTime
  split <;> omega

/-- Appending a queue-dispatch event appends its record. -/
theorem dispatchRecs_append_dispatch (evs : List TEvent) (f a st fin : Nat) :
    dispatchRecs (evs ++ [TEvent.dispatch f a st fin]) =
      dispatchRecs evs ++ [⟨f, a, st, fin⟩] := by
  simp [dispatchRecs, List.filterMap_append]

/-- Appending a backoff event leaves the dispatch records unchanged. -/
theorem dispatchRecs_append_backoffStart (evs : List TEvent) (f st w : Nat) :
    dispatchRecs (evs ++ [TEvent.backoffStart f st w]) = dispatchRecs evs := by
  simp [dispatchRecs, List.filterMap_append]

/-- Appending a bypass-dispatch event leaves the queue-dispatch records
unchanged. -/
theorem dispatchRecs_append_bypassDispatch (evs : List TEvent) (f a st fin : Nat) :
    dispatchRecs (evs ++ [TEvent.bypassDispatch f a st fin]) = dispatchRecs evs := by
  simp [dispatchRecs, List.filterMap_append]

/-- `setPhase` does not touch other fibers. -/
theorem setPhase_getElem_ne (fs : List Fiber) (f f' : Nat) (p : FiberPhase)
    (h : f' ≠ f) : (setPhase fs f p)[f']? = fs[f']? := by
  cases hf : fs[f]? with
  | none => simp [setPhase, hf]
  | some fb =>
    simp only [setPhase, hf]
    exact List.getElem?_set_ne (Ne.symm h)

/-- `setPhase` replaces the phase of an existing fiber, keeping its
`useQueue` flag. -/
theorem setPhase_getElem_eq (fs : List Fiber) (f : Nat) (p : FiberPhase) (fb : Fiber)
    (h : fs[f]? = some fb) : (setPhase fs f p)[f]? = some ⟨fb.useQueue, p⟩ := by
  simp only [setPhase, h]
  exact List.getElem?_set_eq_of_lt _ (List.getElem?_eq_some.mp h).1

/-- An existing fiber's index is below the fiber count. -/
theorem fiber_lt_length {fs : List Fiber} {f : Nat} {fb : Fiber}
    (h : fs[f]? = some fb) : f < fs.length :=
  (List.getElem?_eq_some.mp h).1

/-- Updating the phase of a fiber that holds no queue slot, while moving
the clock forward and leaving the dispatch records unchanged, preserves
the invariant. -/
theorem TInv_update_nonoccupant (s : TState) (f : Nat) (p : FiberPhase)
    (t' : Nat) (evs' : List TEvent)
    (hs : TInv s) (ht : s.time ≤ t') (hocc : f ∉ occupants s)
    (hdl : dispatchRecs evs' = dispatchRecs s.events) :
    TInv { s with time := t', fibers := setPhase s.fibers f p, events := evs' } := by
  obtain ⟨h1, h2, h3, h4, h5, h6, h7, h8⟩ := hs
  refine ⟨le_trans h1 ht, ?_, ?_, ?_, ?_, ?_, ?_, ?_⟩
  · show List.Chain' pacedNonoverlapping (dispatchRecs evs')
    rw [hdl]; exact h2
  · show (dispatchRecs evs').getLast? = none → s.lastRequestTime = 0
    rw [hdl]; exact h3
  · show ∀ r, (dispatchRecs evs').getLast? = some r →
      r.start = s.lastRequestTime ∧ r.start ≤ r.finish
    rw [hdl]; exact h4
  · show ∀ f' a st fin, s.running = some (f', a, st, fin) →
      (dispatchRecs evs').getLast? = some ⟨f', a, st, fin⟩
    rw [hdl]; exact h5
  · show s.running = none → ∀ r, (dispatchRecs evs').getLast? = some r →
      r.finish ≤ t'
    rw [hdl]
    exact fun hrn r hlast => le_trans (h6 hrn r hlast) ht
  · show ∀ f' ∈ occupants s, ∃ fb, (setPhase s.fibers f p)[f']? = some fb ∧
      fb.useQueue = true ∧ ∃ a, fb.phase = FiberPhase.waiting a
    intro f' hf'
    obtain ⟨fb, hfb, hqu, a, hph⟩ := h7 f' hf'
    have hne : f' ≠ f := fun he => hocc (he ▸ hf')
    exact ⟨fb, by rw [setPhase_getElem_ne _ _ _ _ hne]; exact hfb, hqu, a, hph⟩
  · show (occupants s).Nodup
    exact h8

/-- Settling the in-flight request at its finish time — whatever phase the
fiber moves to — preserves the invariant, provided the new events carry
the same dispatch records. -/
theorem TInv_complete (s : TState) (f a st fin : Nat) (p : FiberPhase)
    (evs' : List TEvent) (hs : TInv s)
    (hr : s.running = some (f, a, st, fin)) (_ht : s.time ≤ fin)
    (hdl : dispatchRecs evs' = dispatchRecs s.events) :
    TInv { s with time := fin, running := none,
                  fibers := setPhase s.fibers f p, events := evs' } := by
  obtain ⟨h1, h2, h3, h4, h5, h6, h7, h8⟩ := hs
  have hlast : (dispatchRecs s.events).getLast? = some ⟨f, a, st, fin⟩ :=
    h5 f a st fin hr
  have hocc : occupants s = f :: s.queue.map (·.1) := by simp [occupants, hr]
  obtain ⟨hst, hsf⟩ := h4 _ hlast
  have hst' : st = s.lastRequestTime := hst
  have hsf' : st ≤ fin := hsf
  refine ⟨?_, ?_, ?_, ?_, ?_, ?_, ?_, ?_⟩
  · show s.lastRequestTime ≤ fin
    omega
  · show List.Chain' pacedNonoverlapping (dispatchRecs evs')
    rw [hdl]; exact h2
  · show (dispatchRecs evs').getLast? = none → s.lastRequestTime = 0
    rw [hdl]; exact h3
  · show ∀ r, (dispatchRecs evs').getLast? = some r →
      r.start = s.lastRequestTime ∧ r.start ≤ r.finish
    rw [hdl]; exact h4
  · show ∀ f' a' st' fin',
        (none : Option (Nat × Nat × Nat × Nat)) = some (f', a', st', fin') →
        (dispatchRecs evs').getLast? = some ⟨f', a', st', fin'⟩
    intro _ _ _ _ he
    cases he
  · show (none : Option (Nat × Nat × Nat × Nat)) = none →
      ∀ r, (dispatchRecs evs').getLast? = some r → r.finish ≤ fin
    intro _ r hlast'
    rw [hdl, hlast] at hlast'
    obtain rfl := Option.some.inj hlast'
    exact Nat.le_refl fin
  · show ∀ f' ∈ s.queue.map (·.1), ∃ fb, (setPhase s.fibers f p)[f']? = some fb ∧
      fb.useQueue = true ∧ ∃ a', fb.phase = FiberPhase.waiting a'
    intro f' hf'
    have hf'mem : f' ∈ occupants s := by
      rw [hocc]; exact List.mem_cons_of_mem _ hf'
    obtain ⟨fb, hfb, hqu, a', hph⟩ := h7 f' hf'mem
    have hne : f' ≠ f := by
      intro he
      subst he
      have hnd := h8
      rw [hocc] at hnd
      exact (List.nodup_cons.mp hnd).1 hf'
    exact ⟨fb, by rw [setPhase_getElem_ne _ _ _ _ hne]; exact hfb, hqu, a', hph⟩
  · show (s.queue.map (·.1)).Nodup
    have hnd := h8
    rw [hocc] at hnd
    exact (List.nodup_cons.mp hnd).2

/-- Every enabled step of the timed system preserves `TInv`. -/
theorem tstep_preserves_TInv (o : Options) (work : Nat → Nat → Nat × Outcome)
    (a : TAction) (s s' : TState)
    (h : tstep o work a s = some s') (hs : TInv s) : TInv s' := by
  cases a with
  | submit useQ =>
    simp only [tstep] at h
    cases useQ with
    | true =>
      obtain rfl := Option.some.inj h
      obtain ⟨h1, h2, h3, h4, h5, h6, h7, h8⟩ := hs
      have hocc : occupants { s with
          fibers := s.fibers ++ [⟨true, FiberPhase.waiting 0⟩],
          queue := s.queue ++ [(s.fibers.length, 0)] } =
          occupants s ++ [s.fibers.length] := by
        simp [occupants, List.append_assoc]
      refine ⟨h1, h2, h3, h4, h5, h6, ?_, ?_⟩
      · intro f' hf'
        rw [hocc] at hf'
        rcases List.mem_append.mp hf' with hmem | hmem
        · obtain ⟨fb, hfb, hqu, a', hph⟩ := h7 f' hmem
          refine ⟨fb, ?_, hqu, a', hph⟩
          rw [List.getElem?_append_left (fiber_lt_length hfb)]
          exact hfb
        · rw [List.mem_singleton] at hmem
          subst hmem
          exact ⟨⟨true, FiberPhase.waiting 0⟩, List.getElem?_concat_length _ _,
            rfl, 0, rfl⟩
      · rw [hocc]
        simp only [List.nodup_append, List.nodup_singleton]
        refine ⟨h8, trivial, ?_⟩
        simp only [List.disjoint_singleton]
        intro hmem
        obtain ⟨fb, hfb, -, -⟩ := h7 _ hmem
        exact absurd (fiber_lt_length hfb) (Nat.lt_irrefl _)
    | false =>
      obtain rfl := Option.some.inj h
      obtain ⟨h1, h2, h3, h4, h5, h6, h7, h8⟩ := hs
      refine ⟨h1, h2, h3, h4, h5, h6, ?_, h8⟩
      intro f' hf'
      obtain ⟨fb, hfb, hqu, a', hph⟩ := h7 f' hf'
      refine ⟨fb, ?_, hqu, a', hph⟩
      rw [List.getElem?_append_left (fiber_lt_length hfb)]
      exact hfb
  | startDrain =>
    simp only [tstep] at h
    by_cases hc : s.drains = 0 ∧ s.queue ≠ []
    · rw [if_pos hc] at h
      obtain rfl := Option.some.inj h
      exact hs
    · rw [if_neg hc] at h
      cases h
  | stopDrain =>
    simp only [tstep] at h
    by_cases hc : s.drains ≠ 0 ∧ s.queue = [] ∧ s.running = none
    · rw [if_pos hc] at h
      obtain rfl := Option.some.inj h
      exact hs
    · rw [if_neg hc] at h
      cases h
  | dispatch =>
    simp only [tstep] at h
    cases hq : s.queue with
    | nil => simp only [hq] at h; cases h
    | cons e rest =>
      obtain ⟨f, a⟩ := e
      simp only [hq] at h
      cases hr : s.running with
      | some r => simp only [hr] at h; cases h
      | none =>
        simp only [hr] at h
        by_cases hd : s.drains = 0
        · rw [if_neg (fun hne => hne hd)] at h
          cases h
        · rw [if_pos hd] at h
          obtain rfl := Option.some.inj h
          obtain ⟨h1, h2, h3, h4, h5, h6, h7, h8⟩ := hs
          have htst : s.time ≤ dispatchStartTime s.time s.lastRequestTime :=
            le_dispatchStartTime _ _
          have hlst : s.lastRequestTime + minRequestInterval ≤
              dispatchStartTime s.time s.lastRequestTime :=
            lastReq_le_dispatchStartTime _ _ h1
          have hdlnew := dispatchRecs_append_dispatch s.events f a
            (dispatchStartTime s.time s.lastRequestTime)
            (dispatchStartTime s.time s.lastRequestTime + (work f a).1)
          have hocc : occupants s = f :: rest.map (·.1) := by
            simp [occupants, hq, hr]
          refine ⟨Nat.le_refl _, ?_, ?_, ?_, ?_, ?_, ?_, ?_⟩
          · show List.Chain' pacedNonoverlapping (dispatchRecs (s.events ++
              [TEvent.dispatch f a (dispatchStartTime s.time s.lastRequestTime)
                (dispatchStartTime s.time s.lastRequestTime + (work f a).1)]))
            rw [hdlnew, List.chain'_append]
            refine ⟨h2, List.chain'_singleton _, ?_⟩
            intro x hx y hy
            simp at hy
            subst hy
            have hlastx : (dispatchRecs s.events).getLast? = some x := by
              rwa [Option.mem_def] at hx
            obtain ⟨hxs, hxf⟩ := h4 x hlastx
            constructor
            · show x.start + minRequestInterval ≤
                dispatchStartTime s.time s.lastRequestTime
              omega
            · show x.finish ≤ dispatchStartTime s.time s.lastRequestTime
              exact le_trans (h6 hr x hlastx) htst
          · intro hnone
            rw [hdlnew, List.getLast?_concat] at hnone
            cases hnone
          · intro r hr'
            rw [hdlnew, List.getLast?_concat] at hr'
            obtain rfl := Option.some.inj hr'
            exact ⟨rfl, Nat.le_add_right _ _⟩
          · intro f' a' st' fin' he
            obtain ⟨rfl, rfl, rfl, rfl⟩ := by simpa using Option.some.inj he
            rw [hdlnew, List.getLast?_concat]
          · intro he
            cases he
          · intro f' hf'
            have hmem : f' ∈ occupants s := by
              rw [hocc]
              exact hf'
            exact h7 f' hmem
          · show (f :: rest.map (·.1)).Nodup
            rw [← hocc]
            exact h8
  | complete =>
    simp only [tstep] at h
    cases hr : s.running with
    | none => simp only [hr] at h; cases h
    | some r =>
      obtain ⟨f, a, st, fin⟩ := r
      simp only [hr] at h
      by_cases ht : s.time ≤ fin
      · rw [if_pos ht] at h
        cases hw : (work f a).2 with
        | ok v =>
          simp only [hw] at h
          obtain rfl := Option.some.inj h
          exact TInv_complete s f a st fin _ s.events hs hr ht rfl
        | err e =>
          simp only [hw] at h
          by_cases h429 : is429 e = true
          · rw [if_pos h429] at h
            by_cases hlt : a < o.maxRetries
            · rw [if_pos hlt] at h
              obtain rfl := Option.some.inj h
              exact TInv_complete s f a st fin _ _ hs hr ht
                (dispatchRecs_append_backoffStart _ _ _ _)
            · rw [if_neg hlt] at h
              obtain rfl := Option.some.inj h
              exact TInv_complete s f a st fin _ s.events hs hr ht rfl
          · rw [if_neg h429] at h
            obtain rfl := Option.some.inj h
            exact TInv_complete s f a st fin _ s.events hs hr ht rfl
      · rw [if_neg ht] at h
        cases h
  | wake f =>
    simp only [tstep] at h
    cases hfb : s.fibers[f]? with
    | none => simp only [hfb] at h; cases h
    | some fb =>
      simp only [hfb] at h
      cases hph : fb.phase with
      | waiting a => simp only [hph] at h; cases h
      | bypassRunning a fin => simp only [hph] at h; cases h
      | done r => simp only [hph] at h; cases h
      | backoff a w =>
        simp only [hph] at h
        by_cases ht : s.time ≤ w
        · rw [if_pos ht] at h
          have hnocc : f ∉ occupants s := by
            intro hmem
            obtain ⟨fb', hfb', -, a', hph'⟩ := hs.2.2.2.2.2.2.1 f hmem
            rw [hfb] at hfb'
            obtain rfl := Option.some.inj hfb'
            rw [hph] at hph'
            cases hph'
          cases hqu : fb.useQueue with
          | false =>
            simp only [hqu] at h
            obtain rfl := Option.some.inj h
            exact TInv_update_nonoccupant s f _ w s.events hs ht hnocc rfl
          | true =>
            simp only [hqu] at h
            obtain rfl := Option.some.inj h
            obtain ⟨h1, h2, h3, h4, h5, h6, h7, h8⟩ := hs
            have hocc2 : occupants { s with
                time := w,
                fibers := setPhase s.fibers f (FiberPhase.waiting (a + 1)),
                queue := s.queue ++ [(f, a + 1)] } = occupants s ++ [f] := by
              simp [occupants, List.append_assoc]
            refine ⟨le_trans h1 ht, h2, h3, h4, h5, ?_, ?_, ?_⟩
            · intro hrn r hlast
              exact le_trans (h6 hrn r hlast) ht
            · intro f' hf'
              rw [hocc2] at hf'
              rcases List.mem_append.mp hf' with hmem | hmem
              · obtain ⟨fb', hfb', hqu', a', hph'⟩ := h7 f' hmem
                have hne : f' ≠ f := fun he => hnocc (he ▸ hmem)
                refine ⟨fb', ?_, hqu', a', hph'⟩
                rw [setPhase_getElem_ne _ _ _ _ hne]
                exact hfb'
              · rw [List.mem_singleton] at hmem
                subst hmem
                refine ⟨⟨fb.useQueue, FiberPhase.waiting (a + 1)⟩,
                  setPhase_getElem_eq _ _ _ _ hfb, hqu, a + 1, rfl⟩
            · rw [hocc2]
              simp only [List.nodup_append, List.nodup_singleton]
              exact ⟨h8, trivial, by simpa [List.disjoint_singleton] using hnocc⟩
        · rw [if_neg ht] at h
          cases h
  | bypassStart f =>
    simp only [tstep] at h
    cases hfb : s.fibers[f]? with
    | none => simp only [hfb] at h; cases h
    | some fb =>
      simp only [hfb] at h
      cases hph : fb.phase with
      | backoff a w => simp only [hph] at h; cases h
      | bypassRunning a fin => simp only [hph] at h; cases h
      | done r => simp only [hph] at h; cases h
      | waiting a =>
        simp only [hph] at h
        cases hqu : fb.useQueue with
        | true => simp only [hqu] at h; cases h
        | false =>
          simp only [hqu] at h
          obtain rfl := Option.some.inj h
          have hnocc : f ∉ occupants s := by
            intro hmem
            obtain ⟨fb', hfb', hqu', -, -⟩ := hs.2.2.2.2.2.2.1 f hmem
            rw [hfb] at hfb'
            obtain rfl := Option.some.inj hfb'
            rw [hqu] at hqu'
            cases hqu'
          exact TInv_update_nonoccupant s f _ s.time _ hs (Nat.le_refl _) hnocc
            (dispatchRecs_append_bypassDispatch _ _ _ _ _)
  | bypassComplete f =>
    simp only [tstep] at h
    cases hfb : s.fibers[f]? with
    | none => simp only [hfb] at h; cases h
    | some fb =>
      simp only [hfb] at h
      cases hph : fb.phase with
      | backoff a w => simp only [hph] at h; cases h
      | waiting a => simp only [hph] at h; cases h
      | done r => simp only [hph] at h; cases h
      | bypassRunning a fin =>
        simp only [hph] at h
        have hnocc : f ∉ occupants s := by
          intro hmem
          obtain ⟨fb', hfb', -, a', hph'⟩ := hs.2.2.2.2.2.2.1 f hmem
          rw [hfb] at hfb'
          obtain rfl := Option.some.inj hfb'
          rw [hph] at hph'
          cases hph'
        by_cases ht : s.time ≤ fin
        · rw [if_pos ht] at h
          cases hw : (work f a).2 with
          | ok v =>
            simp only [hw] at h
            obtain rfl := Option.some.inj h
            exact TInv_update_nonoccupant s f _ fin s.events hs ht hnocc rfl
          | err e =>
            simp only [hw] at h
            by_cases h429 : is429 e = true
            · rw [if_pos h429] at h
              by_cases hlt : a < o.maxRetries
              · rw [if_pos hlt] at h
                obtain rfl := Option.some.inj h
                exact TInv_update_nonoccupant s f _ fin _ hs ht hnocc
                  (dispatchRecs_append_backoffStart _ _ _ _)
              · rw [if_neg hlt] at h
                obtain rfl := Option.some.inj h
                exact TInv_update_nonoccupant s f _ fin s.events hs ht hnocc rfl
            · rw [if_neg h429] at h
              obtain rfl := Option.some.inj h
              exact TInv_update_nonoccupant s f _ fin s.events hs ht hnocc rfl
        · rw [if_neg ht] at h
          cases h

/-- Running any timed action trace preserves `TInv`. -/
theorem runT_preserves_TInv (o : Options) (work : Nat → Nat → Nat × Outcome) :
    ∀ (tr : List TAction) (s s' : TState),
      TInv s → runT o work tr s = some s' → TInv s' := by
  intro tr
  induction tr with
  | nil =>
    intro s s' hs h
    obtain rfl := Option.some.inj h
    exact hs
  | cons a tr ih =>
    intro s s' hs h
    simp only [runT] at h
    cases hstep : tstep o work a s with
    | none => rw [hstep] at h; cases h
    | some s1 =>
      rw [hstep] at h
      exact ih s1 s' (tstep_preserves_TInv o work a s s1 hstep hs) h

/-- A fresh timed system satisfies the invariant. -/
theorem TInv_tinit (t0 : Nat) : TInv (tinit t0) := by
  refine ⟨Nat.zero_le _, ?_, fun _ => rfl, ?_, ?_, ?_, ?_, ?_⟩
  · exact List.chain'_nil
  · intro r hr
    cases hr
  · intro f a st fin he
    cases he
  · intro _ r hr
    cases hr
  · intro f hf
    cases hf
  · exact List.nodup_nil

/-- Every state reachable from a fresh timed system satisfies `TInv`. -/
theorem runT_TInv (o : Options) (work : Nat → Nat → Nat × Outcome)
    (tr : List TAction) (t0 : Nat) (s : TState)
    (h : runT o work tr (tinit t0) = some s) : TInv s :=
  runT_preserves_TInv o work tr (tinit t0) s (TInv_tinit t0) h

/-- C2 counterexample: the claim that a 429'd task retains the queue slot
through its backoff — so that no other queued task dispatches mid-retry —
is false. In the reachable scenario `c2trace`, fiber 0's first attempt
gets a 429 and starts a backoff from 10100 to 12100, and fiber 1's queued
task is dispatched at 11200, strictly inside that window: each retry goes
through a fresh `addRequest` (line 131), so the slot is released when the
failed attempt rejects. -/
theorem c2_slot_retained_counterexample :
    ¬ (∀ (o : Options) (work : Nat → Nat → Nat × Outcome) (tr : List TAction)
        (t0 : Nat) (s : TState), runT o work tr (tinit t0) = some s →
        noOtherDispatchDuringBackoff s) := by
  intro hclaim
  have hnd := hclaim defaultOptions c2work c2trace 10000 c2state (by decide)
  exact hnd 0 10100 12100 (by decide) 1 0 11200 11300 (by decide) (by decide)
    ⟨by decide, by decide⟩

/-- C2 amended: while a fiber is waiting out its backoff delay it holds
no queue slot at all — its failed attempt has settled, it has no entry in
`queue` and is not the in-flight request — so other queued tasks may
dispatch during the backoff; the retry is enqueued as a fresh task only
when the delay expires. -/
theorem c2_backoff_releases_slot (o : Options) (work : Nat → Nat → Nat × Outcome)
    (tr : List TAction) (t0 : Nat) (s : TState)
    (h : runT o work tr (tinit t0) = some s) :
    ∀ f fb a w, s.fibers[f]? = some fb → fb.phase = FiberPhase.backoff a w →
      (∀ e ∈ s.queue, e.1 ≠ f) ∧ (∀ r, s.running = some r → r.1 ≠ f) := by
  intro f fb a w hfb hph
  have h7 := (runT_TInv o work tr t0 s h).2.2.2.2.2.2.1
  have hnocc : f ∉ occupants s := by
    intro hmem
    obtain ⟨fb', hfb', -, a', hph'⟩ := h7 f hmem
    rw [hfb] at hfb'
    obtain rfl := Option.some.inj hfb'
    rw [hph] at hph'
    cases hph'
  constructor
  · intro e he hef
    exact hnocc (List.mem_append.mpr (Or.inr (List.mem_map.mpr ⟨e, he, hef⟩)))
  · intro r hr hrf
    apply hnocc
    have hocc : occupants s = r.1 :: s.queue.map (·.1) := by simp [occupants, hr]
    rw [hocc, hrf]
    exact List.mem_cons_self _ _

/-- Witness for the amended C2: after `c2start`, fiber 0 sleeps in backoff
while fiber 1 still waits in the queue, and fiber 0 holds neither the
queue entry nor the in-flight request. -/
theorem c2_backoff_releases_slot_witness :
    runT defaultOptions c2work c2start (tinit 10000) = some c2midState ∧
    c2midState.fibers[0]? = some ⟨true, FiberPhase.backoff 0 12100⟩ ∧
    ((∀ e ∈ c2midState.queue, e.1 ≠ 0) ∧
      (∀ r, c2midState.running = some r → r.1 ≠ 0)) :=
  ⟨by decide, by decide,
    c2_backoff_releases_slot defaultOptions c2work c2start 10000 c2midState
      (by decide) 0 ⟨true, FiberPhase.backoff 0 12100⟩ 0 12100 (by decide) rfl⟩

/-- C7: in every reachable queue state at most one drain loop is active
and the callers whose `work()` has started, followed by the still-queued
callers, are exactly the submissions in arrival order (strict FIFO
dispatch); and in the timed system consecutive queue dispatches never
overlap — each starts no earlier than the previous one finished. -/
theorem c7_fifo_serialized :
    (∀ (env : Nat → Settled) (tr : List (QAction Nat)) (s : QState Nat),
        runQ env tr (qinit Nat) = some s →
        s.drains ≤ 1 ∧ s.started ++ s.queue.map (·.caller) = s.submittedQ) ∧
    (∀ (o : Options) (work : Nat → Nat → Nat × Outcome) (tr : List TAction)
        (t0 : Nat) (s : TState), runT o work tr (tinit t0) = some s →
        List.Chain' (fun x y => x.finish ≤ y.start) (dispatchRecs s.events)) := by
  constructor
  · intro env tr s h
    obtain ⟨h1, h2, -, -⟩ := runQ_QInv env tr s h
    exact ⟨h1, h2⟩
  · intro o work tr t0 s h
    exact ((runT_TInv o work tr t0 s h).2.1).imp (fun _ _ hab => hab.2)

/-- Witness for C7 on the concrete deduplication and backoff scenarios. -/
theorem c7_fifo_serialized_witness :
    (runQ envC3 c3trace (qinit Nat) = some c3state ∧
      (c3state.drains ≤ 1 ∧
        c3state.started ++ c3state.queue.map (·.caller) = c3state.submittedQ)) ∧
    (runT defaultOptions c2work c2trace (tinit 10000) = some c2state ∧
      List.Chain' (fun x y => x.finish ≤ y.start) (dispatchRecs c2state.events)) :=
  ⟨⟨by decide, c7_fifo_serialized.1 envC3 c3trace c3state (by decide)⟩,
   ⟨by decide,
     c7_fifo_serialized.2 defaultOptions c2work c2trace 10000 c2state (by decide)⟩⟩

/-- C8: in every reachable timed state, consecutive queue dispatches start
at least `minRequestInterval` apart — across drain sessions, retries and
idle gaps alike; and with the constructor's `lastRequestTime = 0` the very
first dispatch is not delayed whenever the clock is at least
`minRequestInterval` (always true of epoch-milliseconds clocks). -/
theorem c8_pacing_floor :
    (∀ (o : Options) (work : Nat → Nat → Nat × Outcome) (tr : List TAction)
        (t0 : Nat) (s : TState), runT o work tr (tinit t0) = some s →
        List.Chain' (fun x y => x.start + minRequestInterval ≤ y.start)
          (dispatchRecs s.events)) ∧
    (∀ t0, minRequestInterval ≤ t0 → dispatchStartTime t0 0 = t0) := by
  constructor
  · intro o work tr t0 s h
    exact ((runT_TInv o work tr t0 s h).2.1).imp (fun _ _ hab => hab.1)
  · intro t0 h
    unfold dispatchStartTime
    rw [if_neg (by omega)]

/-- Witness for C8 on the backoff scenario and a concrete first dispatch. -/
theorem c8_pacing_floor_witness :
    (runT defaultOptions c2work c2trace (tinit 10000) = some c2state ∧
      List.Chain' (fun x y => x.start + minRequestInterval ≤ y.start)
        (dispatchRecs c2state.events)) ∧
    (minRequestInterval ≤ 10000 ∧ dispatchStartTime 10000 0 = 10000) :=
  ⟨⟨by decide,
     c8_pacing_floor.1 defaultOptions c2work c2trace 10000 c2state (by decide)⟩,
   ⟨by decide, c8_pacing_floor.2 10000 (by decide)⟩⟩

/-- C9: a `useQueue = false` submission executes `requestFn` immediately:
in any state — even with the drain loop mid-task — the bypass step is
enabled and starts the run at the current instant `s.time` (no pacing
sleep), changing only the fiber's phase and the event log: the queue,
`lastRequestTime`, the drain state and the in-flight entry are untouched,
and no deduplication key is consulted (the bypass branch of lines 130-132
never calls `addRequest`). -/
theorem c9_bypass_immediate (o : Options) (work : Nat → Nat → Nat × Outcome)
    (s : TState) (f a : Nat) (fb : Fiber)
    (hfb : s.fibers[f]? = some fb) (hqu : fb.useQueue = false)
    (hph : fb.phase = FiberPhase.waiting a) :
    tstep o work (TAction.bypassStart f) s =
      some { s with
        fibers := setPhase s.fibers f
          (FiberPhase.bypassRunning a (s.time + (work f a).1)),
        events := s.events ++
          [TEvent.bypassDispatch f a s.time (s.time + (work f a).1)] } := by
  simp only [tstep, hfb, hph, hqu]

/-- Witness for C9: in `c9state` the drain is busy with fiber 0's slow
request, yet the bypass fiber 1 starts immediately at the current time. -/
theorem c9_bypass_immediate_witness :
    c9state.fibers[1]? = some ⟨false, FiberPhase.waiting 0⟩ ∧
    c9state.running ≠ none ∧
    tstep defaultOptions c9work (TAction.bypassStart 1) c9state =
      some { c9state with
        fibers := setPhase c9state.fibers 1
          (FiberPhase.bypassRunning 0 (c9state.time + (c9work 1 0).1)),
        events := c9state.events ++
          [TEvent.bypassDispatch 1 0 c9state.time (c9state.time + (c9work 1 0).1)] } :=
  ⟨by decide, by decide,
    c9_bypass_immediate defaultOptions c9work c9state 1 0
      ⟨false, FiberPhase.waiting 0⟩ (by decide) rfl rfl⟩

end RateLimiter
